import Mathlib

/-!
Verification of the list/item ordering and synchronization engine of the
NotepadApp repository: a shallow embedding of the reorder, toggle, add,
share and fetch logic of `src/app/list/[id]/page.tsx` (its two revisions,
here namespaces `V1` and `V2`), `src/app/page.tsx` (namespace `Home`) and
`src/supabase.sql` (namespace `Db`), with theorems about the ordering model,
its failure handling and the sharing procedure.

Modelling conventions: `position integer` is `Int`; `created_at timestamptz`
is an integer timestamp (only its ordering matters); entity ids are strings.
Asynchronous remote calls are embedded as explicit write values
(`ItemWrite`) plus a `writeFails` flag threaded through the `...Run`
functions that reproduce each handler's failure branch.
-/

/-- An item row as held in client state and in the `items` table
(`interface Item` in `src/app/list/[id]/page.tsx`). -/
structure Item where
  id : String
  text : String
  url : Option String
  checked : Bool
  created_by : Option String
  created_at : Int
  position : Int
deriving DecidableEq, Repr

/-- A row of a batched `.upsert(updates, { onConflict: 'id' })` call against
`items`: exactly the fields the source builds. Revision 1's drag rows carry no
`checked` field, revision 2's rows do, hence the `Option`. -/
structure UpsertRow where
  id : String
  position : Int
  list_id : String
  text : String
  checked : Option Bool
deriving DecidableEq, Repr

/-- An object literal passed to a single-row `.update({...}).eq('id', ...)`
against `items`: only fields some call in the source writes. -/
structure ItemPatch where
  text : Option String := none
  checked : Option Bool := none
  position : Option Int := none
deriving DecidableEq, Repr

/-- One remote write against the `items` table issued by the engine. -/
inductive ItemWrite where
  | update (id : String) (patch : ItemPatch)
  | upsert (rows : List UpsertRow)
deriving DecidableEq, Repr

/-- The `'up' | 'down'` direction argument of the stepwise move handlers. -/
inductive Dir where
  | up
  | down
deriving DecidableEq, Repr

/-- The checked-state partition selection written in both revisions as
`item.checked ? items.filter(i => i.checked) : items.filter(i => !i.checked)`. -/
def partitionOf (items : List Item) (checked : Bool) : List Item :=
  if checked then items.filter (fun i => i.checked) else items.filter (fun i => !i.checked)

namespace V1

/-- Revision 1 `moveItem` (`src/app/list/[id]/page.tsx:172-197`): swap the
`position` values of the item and its neighbour inside the same checked-state
partition, via two single-row updates. `indexOf` is modelled by `findIdx?` on
structural equality; the UI passes an element of `items`, so a miss (modelled
as issuing no write) does not occur there. -/
def moveItem (items : List Item) (item : Item) (direction : Dir) : List ItemWrite :=
  let relevantItems := partitionOf items item.checked
  match relevantItems.findIdx? (fun i => i == item) with
  | none => []
  | some index =>
    if direction = .up ∧ index = 0 then []
    else if direction = .down ∧ index = relevantItems.length - 1 then []
    else
      let targetIndex := if direction = .up then index - 1 else index + 1
      match relevantItems[targetIndex]? with
      | none => []
      | some targetItem =>
        [ItemWrite.update item.id { position := some targetItem.position },
         ItemWrite.update targetItem.id { position := some item.position }]

/-- The drag state of revision 1: the rendered items plus the `draggedItem`
`useState` cell. -/
structure DragState where
  items : List Item
  draggedItem : Option Item
deriving DecidableEq, Repr

/-- Revision 1 `onDragStart` (`src/app/list/[id]/page.tsx:220-222`). -/
def onDragStart (s : DragState) (item : Item) : DragState :=
  { s with draggedItem := some item }

/-- Revision 1 `onDragOver` (`src/app/list/[id]/page.tsx:224-238`): splice the
dragged item to the hovered item's index in the local order, guarded to
same-partition targets. The hovered item is a rendered element of `items` and
the dragged item stays in the list under drag events, so the two `findIndex`
calls cannot miss there; a miss is modelled as a no-op. -/
def onDragOver (s : DragState) (targetItem : Item) : DragState :=
  match s.draggedItem with
  | none => s
  | some draggedItem =>
    if draggedItem.id = targetItem.id then s
    else if draggedItem.checked ≠ targetItem.checked then s
    else
      match s.items.findIdx? (fun i => i.id == draggedItem.id),
            s.items.findIdx? (fun i => i.id == targetItem.id) with
      | some draggedIdx, some targetIdx =>
        { s with items := (s.items.eraseIdx draggedIdx).insertIdx targetIdx draggedItem }
      | _, _ => s

/-- Revision 1 `onDragEnd` (`src/app/list/[id]/page.tsx:240-258`): on release,
renumber the dragged item's whole partition by its index in the local order
and issue one batched upsert (rows `{ id, position: index, list_id, text }`). -/
def onDragEnd (listId : String) (s : DragState) : DragState × List ItemWrite :=
  match s.draggedItem with
  | none => (s, [])
  | some draggedItem =>
    let relevantItems := partitionOf s.items draggedItem.checked
    let updates := relevantItems.mapIdx fun index item =>
      ({ id := item.id, position := (index : Int), list_id := listId,
         text := item.text, checked := none } : UpsertRow)
    ({ s with draggedItem := none }, [ItemWrite.upsert updates])

end V1

namespace V2

/-- Revision 2 `saveNewPositions` (`src/app/list/[id]/page.tsx:862-875`): one
batched upsert renumbering each row of the `isChecked` partition of `items` by
its index (rows `{ id, position: index, list_id, text, checked }`). Its caller
`moveItem` invokes it right after `setItems(combined)`, so the `items` state it
closes over is still the pre-move order. -/
def saveNewPositions (listId : String) (items : List Item) (isChecked : Bool) : ItemWrite :=
  let relevantItems := items.filter (fun i => i.checked == isChecked)
  let updates := relevantItems.mapIdx fun index item =>
    ({ id := item.id, position := (index : Int), list_id := listId,
       text := item.text, checked := some item.checked } : UpsertRow)
  ItemWrite.upsert updates

/-- Revision 2 `moveItem` (`src/app/list/[id]/page.tsx:877-897`): splice the
item one slot up or down inside its checked-state partition, rebuild the local
list (unchecked partition first), and call `saveNewPositions`. `none` is the
early `return` (lookup miss or partition boundary): neither local state nor
the store is touched there. -/
def moveItem (listId : String) (items : List Item) (itemToMove : Item) (direction : Dir) :
    Option (List Item × ItemWrite) :=
  let relevantItems := partitionOf items itemToMove.checked
  match relevantItems.findIdx? (fun i => i.id == itemToMove.id) with
  | none => none
  | some currentIndex =>
    let newIndex : Int := if direction = .up then (currentIndex : Int) - 1 else currentIndex + 1
    if newIndex < 0 ∨ (relevantItems.length : Int) ≤ newIndex then none
    else
      match relevantItems[currentIndex]? with
      | none => none
      | some removed =>
        let newRelevantItems := (relevantItems.eraseIdx currentIndex).insertIdx newIndex.toNat removed
        let otherItems := items.filter (fun i => i.checked != itemToMove.checked)
        let combined := if itemToMove.checked then otherItems ++ newRelevantItems
          else newRelevantItems ++ otherItems
        some (combined, saveNewPositions listId items itemToMove.checked)

end V2

/-- The optimistic flip of `toggleItem` (identical in both revisions,
`src/app/list/[id]/page.tsx:199-216` and `843-860`): map `checked := !checked`
over the one matching id. -/
def toggleApply (items : List Item) (item : Item) : List Item :=
  items.map fun i => if i.id == item.id then { i with checked := !i.checked } else i

/-- The remote write of `toggleItem`: `.update({ checked: !item.checked })`
on the toggled item's id — no other column is sent. -/
def toggleWrite (item : Item) : ItemWrite :=
  ItemWrite.update item.id { checked := some (!item.checked) }

/-- The failure branch of `toggleItem`: map `checked := item.checked` (the
captured pre-toggle value) back over the one matching id. -/
def toggleRevert (items : List Item) (item : Item) : List Item :=
  items.map fun i => if i.id == item.id then { i with checked := item.checked } else i

/-- The whole `toggleItem` handler on local state: optimistic flip, then the
revert when the remote update fails. -/
def toggleItem (items : List Item) (item : Item) (writeFails : Bool) : List Item :=
  let optimistic := toggleApply items item
  if writeFails then toggleRevert optimistic item else optimistic

/-- A list row as held by the home page (`interface ListItem` of
`src/app/page.tsx`, reorder-capable revision; the derived counts are display
glue and not modelled). -/
structure ListRow where
  id : String
  name : String
  icon : String
  position : Int
  created_at : Int
deriving DecidableEq, Repr

/-- A row of the home page's batched upsert against `lists`
(`{ id, position: index, name, created_by }`). -/
structure ListUpsertRow where
  id : String
  position : Int
  name : String
  created_by : Option String
deriving DecidableEq, Repr

namespace Home

/-- Home page `saveNewPositions` (`src/app/page.tsx:106-117`): renumber the
given (already reordered) lists by index in one batched upsert. Unlike
revision 2's item counterpart it receives the updated array as a parameter,
and its failure branch re-fetches (`if (error) fetchLists()`, modelled in
`moveListRun`). -/
def saveNewPositions (userId : Option String) (updatedLists : List ListRow) : List ListUpsertRow :=
  updatedLists.mapIdx fun index list =>
    { id := list.id, position := (index : Int), name := list.name, created_by := userId }

/-- Home page `moveList` (`src/app/page.tsx:118-129`): splice the list one slot
up or down; inside the bounds guard, set the local order and persist it.
`none` is the no-write path (lookup miss or boundary). -/
def moveList (userId : Option String) (lists : List ListRow) (listToMove : ListRow)
    (direction : Dir) : Option (List ListRow × List ListUpsertRow) :=
  match lists.findIdx? (fun l => l.id == listToMove.id) with
  | none => none
  | some currentIndex =>
    let newIndex : Int := if direction = .up then (currentIndex : Int) - 1 else currentIndex + 1
    if 0 ≤ newIndex ∧ newIndex < (lists.length : Int) then
      match lists[currentIndex]? with
      | none => none
      | some removed =>
        let newLists := (lists.eraseIdx currentIndex).insertIdx newIndex.toNat removed
        some (newLists, saveNewPositions userId newLists)
    else none

end Home

/-- The row order requested by `fetchItems`
(`src/app/list/[id]/page.tsx:70-82`): `checked` ascending (unchecked first),
then `position` ascending, then `created_at` descending. -/
def itemLE (a b : Item) : Prop :=
  (a.checked = false ∧ b.checked = true) ∨
    (a.checked = b.checked ∧
      (a.position < b.position ∨ (a.position = b.position ∧ b.created_at ≤ a.created_at)))

instance : DecidableRel itemLE := fun a b => by unfold itemLE; infer_instance

instance : IsTotal Item itemLE := by
  refine ⟨fun a b => ?_⟩
  unfold itemLE
  cases ha : a.checked <;> cases hb : b.checked <;>
    rcases Int.lt_trichotomy a.position b.position with h | h | h <;>
    rcases Int.le_total b.created_at a.created_at with h' | h' <;>
    simp [ha, hb, h, h', Int.le_of_lt]

instance : IsTrans Item itemLE := by
  refine ⟨fun a b c hab hbc => ?_⟩
  unfold itemLE at hab hbc ⊢
  rcases hab with ⟨ha, hb⟩ | ⟨hab, h1⟩ <;> rcases hbc with ⟨hb', hc⟩ | ⟨hbc, h2⟩
  · rw [hb] at hb'; exact absurd hb' (by simp)
  · exact Or.inl ⟨ha, hbc ▸ hb⟩
  · exact Or.inl ⟨hab.trans hb', hc⟩
  · exact Or.inr ⟨hab.trans hbc, by omega⟩

/-- The rows `fetchItems` hands to `setItems`, modelled as a sort of the
stored rows by the requested order keys. -/
def fetchItems (store : List Item) : List Item :=
  List.insertionSort itemLE store

/-- The row order requested by the home page `fetchLists`
(`src/app/page.tsx:40-45`): `position` ascending, then `created_at`
descending. -/
def listLE (a b : ListRow) : Prop :=
  a.position < b.position ∨ (a.position = b.position ∧ b.created_at ≤ a.created_at)

instance : DecidableRel listLE := fun a b => by unfold listLE; infer_instance

instance : IsTotal ListRow listLE := by
  refine ⟨fun a b => ?_⟩
  unfold listLE
  omega

instance : IsTrans ListRow listLE := by
  refine ⟨fun a b c hab hbc => ?_⟩
  unfold listLE at hab hbc ⊢
  omega

/-- The rows the home page `fetchLists` hands to `setLists`. -/
def fetchLists (store : List ListRow) : List ListRow :=
  List.insertionSort listLE store

/-- Application of an `ItemPatch` to a stored row: each sent column overwrites,
each unsent column is kept. -/
def applyPatch (i : Item) (p : ItemPatch) : Item :=
  { i with text := p.text.getD i.text, checked := p.checked.getD i.checked,
           position := p.position.getD i.position }

/-- Map an update over the one row whose id matches (the store semantics of
`.eq('id', tid)` on an update). -/
def updateById (store : List Item) (tid : String) (f : Item → Item) : List Item :=
  store.map fun i => if i.id == tid then f i else i

/-- The column overwrite an upsert row applies to the matching stored row:
the sent columns replace, the unsent ones are kept. -/
def upsertOverwrite (r : UpsertRow) (i : Item) : Item :=
  { i with position := r.position, text := r.text, checked := r.checked.getD i.checked }

/-- Application of one upsert row (`onConflict: 'id'`) to the stored rows:
overwrite the matching row's sent columns, or insert a new row (server-side
defaults for the columns the row does not carry). -/
def applyRow (store : List Item) (r : UpsertRow) : List Item :=
  if store.any (fun i => i.id == r.id) then
    updateById store r.id (upsertOverwrite r)
  else
    store ++ [{ id := r.id, text := r.text, url := none, checked := r.checked.getD false,
                created_by := none, created_at := 0, position := r.position }]

/-- Application of one engine write to the stored rows. -/
def applyWrite (store : List Item) : ItemWrite → List Item
  | .update id patch => updateById store id (fun i => applyPatch i patch)
  | .upsert rows => rows.foldl applyRow store

/-- Application of a sequence of engine writes. -/
def applyWrites (store : List Item) (ws : List ItemWrite) : List Item :=
  ws.foldl applyWrite store

/-- The ids whose row a write touches. -/
def targetsOf : ItemWrite → List String
  | .update id _ => [id]
  | .upsert rows => rows.map (·.id)

/-- The stored `position` of the row with the given id, if any. -/
def posOf (store : List Item) (id : String) : Option Int :=
  (store.find? (fun i => i.id == id)).map (·.position)

/-- Revision 1 drag release together with its write outcome: on upsert failure
the handler re-fetches (`if (error) fetchItems()`), replacing the optimistic
local order with the authoritative one; on success the store takes the rows.
Result: (client state, store). -/
def onDragEndRun (listId : String) (s : V1.DragState) (store : List Item)
    (writeFails : Bool) : V1.DragState × List Item :=
  match s.draggedItem with
  | none => (s, store)
  | some _ =>
    let (s', ws) := V1.onDragEnd listId s
    if writeFails then ({ s' with items := fetchItems store }, store)
    else (s', applyWrites store ws)

/-- Revision 2 stepwise move together with its write outcome: `moveItem` sets
the local order and calls `saveNewPositions`, which awaits the upsert but never
reads its error — a failed write leaves the optimistic local order in place and
nothing is re-fetched. Result: (local items, store). -/
def moveItemRun (listId : String) (items store : List Item) (itemToMove : Item)
    (direction : Dir) (writeFails : Bool) : List Item × List Item :=
  match V2.moveItem listId items itemToMove direction with
  | none => (items, store)
  | some (combined, w) =>
    if writeFails then (combined, store) else (combined, applyWrite store w)

/-- Application of one home-page upsert row to the stored `lists` rows
(columns outside the modelled row, such as `created_by`, elided). -/
def applyListRow (store : List ListRow) (r : ListUpsertRow) : List ListRow :=
  if store.any (fun l => l.id == r.id) then
    store.map fun l => if l.id == r.id then { l with position := r.position, name := r.name } else l
  else
    store ++ [{ id := r.id, name := r.name, icon := "", position := r.position, created_at := 0 }]

/-- Home page `moveList` together with its write outcome: the failure branch of
its `saveNewPositions` re-fetches (`if (error) fetchLists()`). Result: (local
lists, store). -/
def moveListRun (userId : Option String) (lists store : List ListRow) (listToMove : ListRow)
    (direction : Dir) (writeFails : Bool) : List ListRow × List ListRow :=
  match Home.moveList userId lists listToMove direction with
  | none => (lists, store)
  | some (newLists, rows) =>
    if writeFails then (fetchLists store, store)
    else (newLists, rows.foldl applyListRow store)

/-- JavaScript `x || d` on a number already typed as `number`: the only falsy
numeric value in range is `0`. Written for the `i.position || 0` guard of
`addItem`. -/
def jsOr (x d : Int) : Int :=
  if x = 0 then d else x

/-- The `position` computed by `addItem` for a new item (identical in both
revisions, `src/app/list/[id]/page.tsx:149-170` and `819-840`):
`items.length > 0 ? Math.max(...items.map(i => i.position || 0)) : 0`, plus 1.
The maximum ranges over all items held for the list, checked and unchecked
alike. -/
def addItemPosition (items : List Item) : Int :=
  let maxPos : Int :=
    if items.length > 0 then
      match items.map (fun i => jsOr i.position 0) with
      | [] => 0
      | x :: xs => xs.foldl max x
    else 0
  maxPos + 1

/-- The same computation restricted to the unchecked partition the new item
joins. Modelled from the spec reading that claim C9 rules out; the source
(`addItem`) pools both partitions instead. -/
def addItemPositionUncheckedOnly (items : List Item) : Int :=
  addItemPosition (items.filter (fun i => !i.checked))

/-- A `profiles` row (`src/supabase.sql:14-19`; `handle_new_user` stores the
auth email as-is, in whatever letter case the account was created with). -/
structure Profile where
  id : String
  email : String
deriving DecidableEq, Repr

/-- The slice of database state the share procedure reads and writes:
`profiles` and `list_members` (a membership is a `(list_id, user_id)` pair,
primary key, `src/supabase.sql:31-35`). -/
structure DbState where
  profiles : List Profile
  members : List (String × String)
deriving DecidableEq, Repr

namespace Db

/-- The SQL procedure `share_list_by_email` (`src/supabase.sql:172-201`):
require the caller's membership, look the target account up by exact equality
on the stored email, and insert the membership with `on conflict do nothing`.
`Except.error` carries the `raise exception` message. -/
def share_list_by_email (db : DbState) (callerId targetListId targetEmail : String) :
    Except String DbState :=
  if ¬ (targetListId, callerId) ∈ db.members then
    .error "Not authorized"
  else
    match db.profiles.find? (fun p => p.email == targetEmail) with
    | none => .error "User not found"
    | some target =>
      if (targetListId, target.id) ∈ db.members then .ok db
      else .ok { db with members := db.members ++ [(targetListId, target.id)] }

end Db

/-- Character-wise ASCII lower-casing of a string, the embedding of the
client's `.toLowerCase()` call (`shareEmail.trim().toLowerCase()`). -/
def toLowerStr (s : String) : String :=
  ⟨s.data.map Char.toLower⟩

/-- Decides whether `pat` occurs at the start of `hay`. -/
def startsWithChars : List Char → List Char → Bool
  | [], _ => true
  | _ :: _, [] => false
  | p :: ps, h :: hs => p == h && startsWithChars ps hs

/-- Decides whether `pat` occurs anywhere in `hay`: the embedding of the
client's `message.includes('User not found')` check. -/
def containsChars (pat : List Char) : List Char → Bool
  | [] => startsWithChars pat []
  | h :: hs => startsWithChars pat (h :: hs) || containsChars pat hs

/-- String containment, as JavaScript `String.prototype.includes`. -/
def strContains (hay pat : String) : Bool :=
  containsChars pat.data hay.data

/-- The toast the share dialog shows: the specific «Користувача не знайдено»
message exactly when the error message contains `'User not found'`, the
message itself otherwise, «Список поділено!» on success. -/
inductive Toast where
  | success
  | userNotFound
  | generic (msg : String)
deriving DecidableEq, Repr

/-- The toast `shareList`'s catch branch picks for an error message. -/
def toastOfError (msg : String) : Toast :=
  if strContains msg "User not found" then Toast.userNotFound else Toast.generic msg

/-- The client `shareList` handler (`src/app/list/[id]/page.tsx:1010-1034`,
same in both revisions): guard the empty input, lower-case the trimmed email,
call the procedure, and map the outcome to the new database state plus a
toast (success also re-fetches members, which does not change `db`). -/
def shareList (db : DbState) (callerId listId shareEmail : String) :
    DbState × Option Toast :=
  if shareEmail.trim = "" then (db, none)
  else
    match Db.share_list_by_email db callerId listId (toLowerStr shareEmail.trim) with
    | .error msg => (db, some (toastOfError msg))
    | .ok db' => (db', some Toast.success)

/-- Decides whether a character is an ASCII uppercase letter. -/
def isUpperAscii (c : Char) : Bool :=
  65 ≤ c.toNat && c.toNat ≤ 90

/-- Decides whether a string contains an ASCII uppercase letter. -/
def hasUpperAscii (s : String) : Bool :=
  s.data.any isUpperAscii

/-- One user reorder gesture event, over items named by id (the machine looks
the rendered element up, as the UI hands the handlers elements of `items`):
revision 2's stepwise move, revision 1's swap move, and revision 1's drag
events. -/
inductive Op where
  | step (itemId : String) (direction : Dir)
  | swap (itemId : String) (direction : Dir)
  | dragStart (itemId : String)
  | dragOver (targetId : String)
  | dragEnd
deriving DecidableEq, Repr

/-- One engine step: the state transition and the writes the event issues. -/
def runOp (listId : String) (s : V1.DragState) : Op → V1.DragState × List ItemWrite
  | .step itemId direction =>
    match s.items.find? (fun i => i.id == itemId) with
    | none => (s, [])
    | some item =>
      match V2.moveItem listId s.items item direction with
      | none => (s, [])
      | some (combined, w) => ({ s with items := combined }, [w])
  | .swap itemId direction =>
    match s.items.find? (fun i => i.id == itemId) with
    | none => (s, [])
    | some item => (s, V1.moveItem s.items item direction)
  | .dragStart itemId =>
    match s.items.find? (fun i => i.id == itemId) with
    | none => (s, [])
    | some item => (V1.onDragStart s item, [])
  | .dragOver targetId =>
    match s.items.find? (fun i => i.id == targetId) with
    | none => (s, [])
    | some target => (V1.onDragOver s target, [])
  | .dragEnd => V1.onDragEnd listId s

/-- A sequence of engine steps, with the issued writes accumulated in order. -/
def runOps (listId : String) (s : V1.DragState) : List Op → V1.DragState × List ItemWrite
  | [] => (s, [])
  | op :: ops =>
    let (s', ws) := runOp listId s op
    let (s'', ws') := runOps listId s' ops
    (s'', ws ++ ws')

/-- The id names an item of checked-state `b` in the given list. -/
def idHasChecked (items : List Item) (b : Bool) (id : String) : Prop :=
  ∃ i ∈ items, i.id = id ∧ i.checked = b

instance : ∀ items b id, Decidable (idHasChecked items b id) := fun items b id => by
  unfold idHasChecked; infer_instance

/-- The event's subject (the item it moves or picks up) lies in the
checked-state partition `b` of the given list; hover and release events carry
no subject of their own. -/
def opMoves (items : List Item) (b : Bool) : Op → Prop
  | .step itemId _ => idHasChecked items b itemId
  | .swap itemId _ => idHasChecked items b itemId
  | .dragStart itemId => idHasChecked items b itemId
  | .dragOver _ => True
  | .dragEnd => True

/-- The machine invariant for the frame argument: every locally held row is one
of the original rows (reorders only permute), and anything picked up for a drag
is an original row of partition `b`. -/
def EngineInv (items₀ : List Item) (b : Bool) (s : V1.DragState) : Prop :=
  (∀ i ∈ s.items, i ∈ items₀) ∧
    (∀ d, s.draggedItem = some d → d ∈ items₀ ∧ d.checked = b)

/-- A concrete unchecked item used in witnesses and counterexamples. -/
def uA : Item :=
  { id := "A", text := "a", url := none, checked := false, created_by := none,
    created_at := 2, position := 0 }

/-- A second concrete unchecked item. -/
def uB : Item :=
  { id := "B", text := "b", url := none, checked := false, created_by := none,
    created_at := 1, position := 1 }

/-- A concrete checked item, with the largest position of the three. -/
def cC : Item :=
  { id := "C", text := "c", url := none, checked := true, created_by := none,
    created_at := 0, position := 7 }

/-- C7: every fetch of a list's items returns the stored multiset sorted by
checked ascending (unchecked before checked), then position ascending, then
created_at descending, for any input multiset of rows, equal positions
included. -/
theorem fetchItems_sorted_by_checked_position_created (store : List Item) :
    (fetchItems store).Perm store ∧
      (fetchItems store).Sorted fun a b =>
        (a.checked = false ∧ b.checked = true) ∨
          (a.checked = b.checked ∧
            (a.position < b.position ∨
              (a.position = b.position ∧ b.created_at ≤ a.created_at))) :=
  ⟨List.perm_insertionSort itemLE store, List.sorted_insertionSort itemLE store⟩

/-- C3: moving the first entity of a partition one slot up, or the last one
slot down, is a no-op both for the revision 2 stepwise item move (per
checked-state partition) and for the home page list move: the handler's early
return (`none`) leaves the local order untouched and issues no write. -/
theorem move_boundary_is_noop :
    (∀ listId items item,
        (partitionOf items item.checked).findIdx? (fun i => i.id == item.id) = some 0 →
        V2.moveItem listId items item .up = none) ∧
    (∀ listId items item,
        (partitionOf items item.checked).findIdx? (fun i => i.id == item.id) =
          some ((partitionOf items item.checked).length - 1) →
        V2.moveItem listId items item .down = none) ∧
    (∀ userId lists listToMove,
        lists.findIdx? (fun l => l.id == listToMove.id) = some 0 →
        Home.moveList userId lists listToMove .up = none) ∧
    (∀ userId lists listToMove,
        lists.findIdx? (fun l => l.id == listToMove.id) = some (lists.length - 1) →
        Home.moveList userId lists listToMove .down = none) := by
  refine ⟨?_, ?_, ?_, ?_⟩
  · intro listId items item h
    simp only [V2.moveItem, h]
    norm_num
  · intro listId items item h
    have hlt : (partitionOf items item.checked).length - 1 <
        (partitionOf items item.checked).length :=
      (List.findIdx?_eq_some_iff_findIdx_eq.mp h).1
    simp only [V2.moveItem, h, reduceCtorEq, if_false]
    split
    · rfl
    next hc => exfalso; omega
  · intro userId lists listToMove h
    simp only [Home.moveList, h]
    norm_num
  · intro userId lists listToMove h
    have hlt : lists.length - 1 < lists.length := (List.findIdx?_eq_some_iff_findIdx_eq.mp h).1
    simp only [Home.moveList, h, reduceCtorEq, if_false]
    split
    next hc => exfalso; omega
    · rfl

/-- C5: when the remote update of a toggle fails, the revert restores exactly
the pre-toggle state: the toggled item's checked flag equals its value before
the toggle, and no other item is modified. The hypothesis states that the
handler's argument is consistent with local state (the UI passes a rendered
element of `items`). -/
theorem toggle_rollback_restores_state (items : List Item) (item : Item)
    (h : ∀ i ∈ items, i.id = item.id → i.checked = item.checked) :
    toggleItem items item true = items := by
  unfold toggleItem toggleApply toggleRevert
  simp only [if_true]
  induction items with
  | nil => rfl
  | cons i is ih =>
    simp only [List.map_cons, List.mem_cons] at *
    congr 1
    · by_cases hid : (i.id == item.id) = true
      · have hck : i.checked = item.checked := h i (Or.inl rfl) (by simpa using hid)
        simp only [hid, if_true]
        rw [← hck]
      · simp only [hid]
        simp at hid
        simp [hid]
    · exact ih fun j hj => h j (Or.inr hj)

/-- Witness for C5 at a concrete input. -/
theorem toggle_rollback_restores_state_witness :
    toggleItem [uA, uB, cC] uB true = [uA, uB, cC] :=
  toggle_rollback_restores_state [uA, uB, cC] uB (by decide)

/-- C6: a toggle's remote write patches only the `checked` flag of the one
toggled item — it sends no `position` (and no text) — and neither the store
rows' positions nor the local rows' positions change when it is applied. -/
theorem toggle_never_writes_positions :
    (∀ item : Item, toggleWrite item =
        ItemWrite.update item.id { text := none, checked := some (!item.checked), position := none }) ∧
    (∀ store : List Item, ∀ item : Item,
        (applyWrite store (toggleWrite item)).map (fun i => (i.id, i.position)) =
          store.map (fun i => (i.id, i.position))) ∧
    (∀ items : List Item, ∀ item : Item,
        (toggleApply items item).map (fun i => (i.id, i.position)) =
          items.map (fun i => (i.id, i.position))) := by
  refine ⟨fun _ => rfl, ?_, ?_⟩
  · intro store item
    induction store with
    | nil => rfl
    | cons i is ih =>
      simp only [applyWrite, toggleWrite, updateById, List.map_cons] at *
      rw [ih]
      by_cases hid : (i.id == item.id) = true <;> simp [hid, applyPatch]
  · intro items item
    induction items with
    | nil => rfl
    | cons i is ih =>
      simp only [toggleApply, List.map_cons] at *
      rw [ih]
      by_cases hid : (i.id == item.id) = true <;> simp [hid]

/-- JS `x || 0` on an `Int`-typed position is the identity. -/
theorem jsOr_zero (x : Int) : jsOr x 0 = x := by
  unfold jsOr
  split <;> omega

/-- A left fold of `max` is attained by its seed or by a list element. -/
theorem foldl_max_attained (xs : List Int) : ∀ x : Int,
    xs.foldl max x = x ∨ xs.foldl max x ∈ xs := by
  induction xs with
  | nil => intro x; exact Or.inl rfl
  | cons y ys ih =>
    intro x
    rcases ih (max x y) with h | h
    · rcases max_choice x y with hm | hm
      · exact Or.inl (by rw [List.foldl_cons, h, hm])
      · exact Or.inr (by rw [List.foldl_cons, h, hm]; exact List.mem_cons_self y ys)
    · exact Or.inr (List.mem_cons_of_mem y h)

/-- A left fold of `max` bounds everything below its seed and every list
element. -/
theorem le_foldl_max (xs : List Int) : ∀ x y : Int,
    (y ≤ x ∨ y ∈ xs) → y ≤ xs.foldl max x := by
  induction xs with
  | nil =>
    intro x y h
    rcases h with h | h
    · exact h
    · cases h
  | cons z zs ih =>
    intro x y h
    rw [List.foldl_cons]
    rcases h with h | h
    · exact ih (max x z) y (Or.inl (h.trans (le_max_left x z)))
    · rcases List.mem_cons.mp h with rfl | h
      · exact ih (max x y) y (Or.inl (le_max_right x y))
      · exact ih (max x z) y (Or.inr h)

/-- C9: an added item's position is 1 plus the maximum position pooled over
all items held for the list — checked and unchecked partitions alike — and 1
for an empty list; it is not the maximum within the unchecked partition the
new item joins, as the concrete configuration (checked item at position 7,
unchecked at position 0) separates. -/
theorem addItem_position_pools_both_partitions :
    addItemPosition [] = 1 ∧
    (∀ items : List Item, ∀ i ∈ items, i.position < addItemPosition items) ∧
    (∀ items : List Item, items ≠ [] →
        ∃ i ∈ items, addItemPosition items = i.position + 1) ∧
    addItemPosition [cC, uA] = 8 ∧ addItemPositionUncheckedOnly [cC, uA] = 1 := by
  refine ⟨rfl, ?_, ?_, by decide, by decide⟩
  · intro items i hi
    match items, hi with
    | j :: is, hi =>
      show i.position < _
      unfold addItemPosition
      simp only [List.length_cons, List.map_cons]
      have hle : jsOr i.position 0 ≤
          (is.map fun k => jsOr k.position 0).foldl max (jsOr j.position 0) := by
        rcases List.mem_cons.mp hi with rfl | hi
        · exact le_foldl_max _ _ _ (Or.inl (le_refl _))
        · exact le_foldl_max _ _ _ (Or.inr (List.mem_map_of_mem _ hi))
      rw [jsOr_zero] at hle
      omega
  · intro items hne
    match items, hne with
    | j :: is, _ =>
      unfold addItemPosition
      simp only [List.length_cons, List.map_cons]
      rcases foldl_max_attained (is.map fun k => jsOr k.position 0) (jsOr j.position 0)
        with h | h
      · refine ⟨j, List.mem_cons_self j is, ?_⟩
        rw [h, jsOr_zero]
        simp
      · rcases List.mem_map.mp h with ⟨k, hk, hkeq⟩
        refine ⟨k, List.mem_cons_of_mem j hk, ?_⟩
        rw [← hkeq, jsOr_zero]
        simp

/-- C2 (code bug on the stepwise path): at the failing input — two unchecked
items A (position 0, index 0) and B (position 1, index 1), stepwise move of B
up — revision 2's `moveItem` sets the local order to [B, A] (B's new
zero-based index is 0), but `saveNewPositions` reads the pre-move `items`
closure and persists A ↦ 0, B ↦ 1: the pre-move indices. A re-fetch of the
store after the write therefore returns the pre-move order, undoing the move. -/
theorem stepwise_move_persists_pre_move_indices :
    V2.moveItem "L" [uA, uB] uB .up =
      some ([uB, uA],
        ItemWrite.upsert
          [{ id := "A", position := 0, list_id := "L", text := "a", checked := some false },
           { id := "B", position := 1, list_id := "L", text := "b", checked := some false }]) ∧
    (partitionOf [uB, uA] false).findIdx? (fun i => i.id == "B") = some 0 ∧
    fetchItems (applyWrite [uA, uB]
        (ItemWrite.upsert
          [{ id := "A", position := 0, list_id := "L", text := "a", checked := some false },
           { id := "B", position := 1, list_id := "L", text := "b", checked := some false }])) =
      [uA, uB] := by
  refine ⟨by decide, by decide, by decide⟩

/-- C4 counterexample: on the revision 2 stepwise item path with a failing
batched write, the optimistic local order [B, A] is kept and the authoritative
order is not re-fetched — `fetchItems` of the untouched store would give
[A, B]. -/
theorem stepwise_move_failure_keeps_optimistic_order :
    moveItemRun "L" [uA, uB] [uA, uB] uB .up true = ([uB, uA], [uA, uB]) ∧
    fetchItems [uA, uB] = [uA, uB] ∧
    ([uB, uA] : List Item) ≠ [uA, uB] := by
  refine ⟨by decide, by decide, by decide⟩

/-- C4 amended: when the batched reposition write fails, the engine discards
the optimistic local order and re-fetches the authoritative order on the item
drag path and on the list reorder path; the revision 2 stepwise item move
issues its upsert without reading the result and re-fetches nothing. -/
theorem reorder_failure_refetches_drag_and_list_paths :
    (∀ listId : String, ∀ store : List Item, ∀ s : V1.DragState, ∀ d : Item,
        s.draggedItem = some d →
        onDragEndRun listId s store true =
          ({ items := fetchItems store, draggedItem := none }, store)) ∧
    (∀ userId : Option String, ∀ lists store : List ListRow, ∀ listToMove direction out,
        Home.moveList userId lists listToMove direction = some out →
        moveListRun userId lists store listToMove direction true = (fetchLists store, store)) := by
  constructor
  · intro listId store s d hd
    unfold onDragEndRun V1.onDragEnd
    rw [hd]
    simp
  · intro userId lists store listToMove direction out h
    unfold moveListRun
    rw [h]
    simp

/-- The valid-codepoint roundtrip of `Char.ofNat`. -/
theorem toNat_ofNat_of_valid {n : Nat} (h : n.isValidChar) : (Char.ofNat n).toNat = n := by
  unfold Char.ofNat
  rw [dif_pos h]
  rfl

/-- ASCII lower-casing never yields an ASCII uppercase letter. -/
theorem isUpperAscii_toLower (c : Char) : isUpperAscii (Char.toLower c) = false := by
  have hdef : Char.toLower c =
      if c.toNat ≥ 65 ∧ c.toNat ≤ 90 then Char.ofNat (c.toNat + 32) else c := rfl
  rw [hdef]
  by_cases h : c.toNat ≥ 65 ∧ c.toNat ≤ 90
  · rw [if_pos h]
    unfold isUpperAscii
    have hv : (c.toNat + 32).isValidChar := Or.inl (by omega)
    rw [toNat_ofNat_of_valid hv]
    simp only [Bool.and_eq_false_iff, decide_eq_false_iff_not]
    omega
  · rw [if_neg h]
    unfold isUpperAscii
    simp only [Bool.and_eq_false_iff, decide_eq_false_iff_not]
    omega

/-- Lower-cased strings contain no ASCII uppercase letter. -/
theorem hasUpperAscii_toLowerStr (s : String) : hasUpperAscii (toLowerStr s) = false := by
  have hdata : (toLowerStr s).data = s.data.map Char.toLower := rfl
  unfold hasUpperAscii
  rw [hdata, List.any_eq_false]
  intro c hc
  rcases List.mem_map.mp hc with ⟨d, _, rfl⟩
  simp [isUpperAscii_toLower]

/-- A string with an ASCII uppercase letter is never a lower-cased string. -/
theorem upper_string_ne_toLowerStr (e : String) (he : hasUpperAscii e = true) (s : String) :
    e ≠ toLowerStr s := by
  intro hcon
  rw [hcon, hasUpperAscii_toLowerStr] at he
  cases he

/-- C8: sharing with an email matching no account fails with the
distinguishable 'User not found' error and creates no membership row, and the
share dialog shows its specific message exactly when the error message
contains 'User not found' — the 'Not authorized' error gets the generic toast. -/
theorem share_not_found_is_distinct_and_writes_nothing :
    (∀ db : DbState, ∀ callerId listId shareEmail : String,
        (listId, callerId) ∈ db.members →
        shareEmail.trim ≠ "" →
        (∀ p ∈ db.profiles, p.email ≠ toLowerStr shareEmail.trim) →
        shareList db callerId listId shareEmail = (db, some Toast.userNotFound)) ∧
    (∀ msg : String,
        toastOfError msg = Toast.userNotFound ↔ strContains msg "User not found" = true) ∧
    toastOfError "Not authorized" = Toast.generic "Not authorized" := by
  refine ⟨?_, ?_, by decide⟩
  · intro db callerId listId shareEmail hmem hne hnomatch
    unfold shareList
    rw [if_neg hne]
    unfold Db.share_list_by_email
    rw [if_neg (not_not_intro hmem)]
    have hfind : db.profiles.find? (fun p => p.email == toLowerStr shareEmail.trim) = none := by
      rw [List.find?_eq_none]
      intro p hp
      simpa using hnomatch p hp
    rw [hfind]
    have htoast : toastOfError "User not found" = Toast.userNotFound := by decide
    simp [htoast]
  · intro msg
    unfold toastOfError
    by_cases h : strContains msg "User not found" = true
    · simp [h]
    · simp [h]

/-- C10: the share procedure looks the account up by exact string equality on
the stored email while the client lower-cases its input first, so the
lower-cased key never equals a stored email containing an ASCII uppercase
letter: against a profile table of such accounts every share attempt raises
'User not found' (specific toast, no membership row), while an input whose
trimmed lower-casing equals a stored — necessarily all-lowercase — email
shares successfully. -/
theorem share_lowercased_key_misses_uppercase_emails :
    (∀ e s : String, hasUpperAscii e = true → e ≠ toLowerStr s) ∧
    (∀ db : DbState, ∀ callerId listId shareEmail : String,
        (listId, callerId) ∈ db.members →
        shareEmail.trim ≠ "" →
        (∀ p ∈ db.profiles, hasUpperAscii p.email = true) →
        shareList db callerId listId shareEmail = (db, some Toast.userNotFound)) ∧
    (∀ db : DbState, ∀ callerId listId : String, ∀ p : Profile, ∀ shareEmail : String,
        (listId, callerId) ∈ db.members →
        shareEmail.trim ≠ "" →
        (db.profiles.map (fun q => q.email)).Nodup →
        p ∈ db.profiles →
        toLowerStr shareEmail.trim = p.email →
        (shareList db callerId listId shareEmail).2 = some Toast.success ∧
          (listId, p.id) ∈ (shareList db callerId listId shareEmail).1.members) := by
  refine ⟨fun e s h => upper_string_ne_toLowerStr e h s, ?_, ?_⟩
  · intro db callerId listId shareEmail hmem hne hupper
    unfold shareList
    rw [if_neg hne]
    unfold Db.share_list_by_email
    rw [if_neg (not_not_intro hmem)]
    have hfind : db.profiles.find? (fun p => p.email == toLowerStr shareEmail.trim) = none := by
      rw [List.find?_eq_none]
      intro p hp
      simpa using upper_string_ne_toLowerStr p.email (hupper p hp) (shareEmail.trim)
    rw [hfind]
    have htoast : toastOfError "User not found" = Toast.userNotFound := by decide
    simp [htoast]
  · intro db callerId listId p shareEmail hmem hne hnd hp hkey
    unfold shareList
    rw [if_neg hne]
    unfold Db.share_list_by_email
    rw [if_neg (not_not_intro hmem)]
    have hisSome : (db.profiles.find? (fun q => q.email == toLowerStr shareEmail.trim)).isSome := by
      rw [List.find?_isSome]
      exact ⟨p, hp, by rw [hkey]; simp⟩
    rcases Option.isSome_iff_exists.mp hisSome with ⟨q, hq⟩
    have hq1 : q.email = toLowerStr shareEmail.trim := by simpa using List.find?_some hq
    have hq2 : q ∈ db.profiles := List.mem_of_find?_eq_some hq
    have hqp : q = p := List.inj_on_of_nodup_map hnd hq2 hp (by rw [hq1, hkey])
    subst hqp
    rw [hq]
    by_cases hmem2 : (listId, q.id) ∈ db.members
    · simp only [if_pos hmem2]
      exact ⟨trivial, hmem2⟩
    · simp only [if_neg hmem2]
      exact ⟨trivial, by simp⟩

/-- An id-targeted row update leaves lookups of every other id untouched. -/
theorem find?_updateById_ne (tid : String) (f : Item → Item)
    (hf : ∀ i, (f i).id = i.id) (id : String) (hne : id ≠ tid) :
    ∀ store : List Item,
      (updateById store tid f).find? (fun i => i.id == id) =
        store.find? (fun i => i.id == id) := by
  intro store
  induction store with
  | nil => rfl
  | cons i is ih =>
    unfold updateById at ih ⊢
    rw [List.map_cons]
    by_cases hid : (i.id == tid) = true
    · have htid : i.id = tid := by simpa using hid
      have h1 : ((f i).id == id) = false := by
        simp only [hf i, htid, beq_eq_false_iff_ne]
        exact fun hcon => hne hcon.symm
      have h2 : (i.id == id) = false := by
        simp only [htid, beq_eq_false_iff_ne]
        exact fun hcon => hne hcon.symm
      rw [if_pos hid, List.find?_cons, List.find?_cons, h1, h2]
      exact ih
    · rw [if_neg hid, List.find?_cons, List.find?_cons]
      cases hpid : (i.id == id) with
      | true => rfl
      | false => exact ih

/-- Applying an upsert row for a different id preserves a row's position. -/
theorem posOf_applyRow_ne (store : List Item) (r : UpsertRow) (id : String)
    (hne : id ≠ r.id) :
    posOf (applyRow store r) id = posOf store id := by
  unfold applyRow
  by_cases hany : store.any (fun i => i.id == r.id) = true
  · rw [if_pos hany]
    unfold posOf
    rw [find?_updateById_ne r.id (upsertOverwrite r) (fun i => rfl) id hne]
  · rw [if_neg hany]
    unfold posOf
    rw [List.find?_append]
    have hsingle : ∀ j : Item, j.id = r.id →
        List.find? (fun i => i.id == id) [j] = none := by
      intro j hj
      rw [List.find?_cons]
      have hb : (j.id == id) = false := by
        simp only [hj, beq_eq_false_iff_ne]
        exact fun hcon => hne hcon.symm
      rw [hb]
      rfl
    rw [hsingle _ rfl, Option.or_none]

/-- Folding upsert rows none of which target an id preserves that row's
position. -/
theorem posOf_foldl_applyRow_ne (id : String) :
    ∀ rows : List UpsertRow, ∀ store : List Item, (∀ r ∈ rows, id ≠ r.id) →
      posOf (rows.foldl applyRow store) id = posOf store id := by
  intro rows
  induction rows with
  | nil => intro store _; rfl
  | cons r rs ih =>
    intro store h
    rw [List.foldl_cons, ih _ (fun x hx => h x (List.mem_cons_of_mem r hx)),
        posOf_applyRow_ne store r id (h r (List.mem_cons_self r rs))]

/-- A write that does not target an id preserves that row's position. -/
theorem posOf_applyWrite_ne (store : List Item) (w : ItemWrite) (id : String)
    (h : id ∉ targetsOf w) :
    posOf (applyWrite store w) id = posOf store id := by
  cases w with
  | update tid patch =>
    unfold applyWrite posOf
    rw [find?_updateById_ne tid (fun i => applyPatch i patch) (fun i => rfl) id
      (by simpa [targetsOf] using h)]
  | upsert rows =>
    unfold applyWrite
    refine posOf_foldl_applyRow_ne id rows store (fun r hr hcon => ?_)
    exact h (by simp only [targetsOf, List.mem_map]; exact ⟨r, hr, hcon.symm⟩)

/-- A write sequence none of which targets an id preserves that row's
position. -/
theorem posOf_applyWrites_ne (id : String) :
    ∀ ws : List ItemWrite, ∀ store : List Item, (∀ w ∈ ws, id ∉ targetsOf w) →
      posOf (applyWrites store ws) id = posOf store id := by
  intro ws
  induction ws with
  | nil => intro store _; rfl
  | cons w rest ih =>
    intro store h
    unfold applyWrites at ih ⊢
    rw [List.foldl_cons, ih _ (fun x hx => h x (List.mem_cons_of_mem w hx)),
        posOf_applyWrite_ne store w id (h w (List.mem_cons_self w rest))]

/-- An element of a checked-state partition is an element of the list with
that checked-state. -/
theorem mem_partitionOf {items : List Item} {b : Bool} {i : Item}
    (h : i ∈ partitionOf items b) : i ∈ items ∧ i.checked = b := by
  cases b <;> simp_all [partitionOf, List.mem_filter]

/-- An element of the `checked == b` filter is an element of the list with
that checked-state. -/
theorem mem_filter_checked {items : List Item} {b : Bool} {i : Item}
    (h : i ∈ items.filter (fun j => j.checked == b)) : i ∈ items ∧ i.checked = b := by
  have hm := List.mem_filter.mp h
  exact ⟨hm.1, eq_of_beq hm.2⟩

/-- Mapping an id-preserving indexed row builder and then projecting ids gives
the ids of the underlying items. -/
theorem map_id_mapIdx (l : List Item) : ∀ f : Nat → Item → UpsertRow,
    (∀ n a, (f n a).id = a.id) →
    (l.mapIdx f).map (fun r => r.id) = l.map (fun i => i.id) := by
  induction l with
  | nil => intro f hf; rfl
  | cons a l ih =>
    intro f hf
    rw [List.mapIdx_cons, List.map_cons, List.map_cons, hf 0 a, ih _ (fun n b => hf (n + 1) b)]

/-- The ids revision 2's `saveNewPositions` writes are exactly the ids of the
`isChecked` partition. -/
theorem targetsOf_saveNewPositions (listId : String) (items : List Item) (b : Bool) :
    targetsOf (V2.saveNewPositions listId items b) =
      (items.filter (fun i => i.checked == b)).map (fun i => i.id) := by
  unfold V2.saveNewPositions targetsOf
  exact map_id_mapIdx _ _ (fun n a => rfl)

/-- The ids revision 1's drag-release upsert writes are exactly the ids of the
dragged partition. -/
theorem targetsOf_dragEnd (listId : String) (items : List Item) (b : Bool) :
    targetsOf (ItemWrite.upsert (List.mapIdx (fun index item =>
        ({ id := item.id, position := (index : Int), list_id := listId,
           text := item.text, checked := none } : UpsertRow)) (partitionOf items b))) =
      (partitionOf items b).map (fun i => i.id) := by
  unfold targetsOf
  exact map_id_mapIdx _ _ (fun n a => rfl)

/-- A successful id lookup in a subset of the original rows finds the original
partition-`b` row named by `idHasChecked` (ids being unique). -/
theorem found_item_mem_checked {items₀ : List Item} {b : Bool}
    (hnd : (items₀.map (fun i => i.id)).Nodup)
    {sItems : List Item} (sub : ∀ i ∈ sItems, i ∈ items₀)
    {itemId : String} {item : Item}
    (hfind : sItems.find? (fun i => i.id == itemId) = some item)
    (hid : idHasChecked items₀ b itemId) :
    item ∈ items₀ ∧ item.checked = b := by
  have h1 : item ∈ sItems := List.mem_of_find?_eq_some hfind
  have h2 : item.id = itemId := by simpa using List.find?_some hfind
  have h3 : item ∈ items₀ := sub item h1
  rcases hid with ⟨j, hj, hjid, hjb⟩
  have hij : item = j := List.inj_on_of_nodup_map hnd h3 hj (show item.id = j.id by rw [h2, hjid])
  exact ⟨h3, hij ▸ hjb⟩

/-- Elements of a splice (erase one index, insert an element at another) are
the inserted element or elements of the original list. -/
theorem mem_splice {l : List Item} {cur n : Nat} {a : Item}
    (hn : n ≤ (l.eraseIdx cur).length) :
    ∀ x ∈ (l.eraseIdx cur).insertIdx n a, x = a ∨ x ∈ l := by
  intro x hx
  rcases (List.mem_insertIdx hn).mp hx with h | h
  · exact Or.inl h
  · exact Or.inr (List.mem_of_mem_eraseIdx h)

/-- Inversion of a successful revision 2 `moveItem`: the new local order holds
only rows of the old one, and the issued write is `saveNewPositions` over the
pre-move rows. -/
theorem moveItem2_inv (listId : String) (items : List Item) (item : Item)
    (direction : Dir) (combined : List Item) (w : ItemWrite)
    (h : V2.moveItem listId items item direction = some (combined, w)) :
    (∀ x ∈ combined, x ∈ items) ∧ w = V2.saveNewPositions listId items item.checked := by
  unfold V2.moveItem at h
  dsimp only at h
  cases hfi : (partitionOf items item.checked).findIdx? (fun i => i.id == item.id) with
  | none => rw [hfi] at h; cases h
  | some currentIndex =>
    rw [hfi] at h
    dsimp only at h
    have hcur : currentIndex < (partitionOf items item.checked).length :=
      (List.findIdx?_eq_some_iff_findIdx_eq.mp hfi).1
    by_cases hg : ((if direction = .up then (currentIndex : Int) - 1 else currentIndex + 1) < 0 ∨
        ((partitionOf items item.checked).length : Int) ≤
          (if direction = .up then (currentIndex : Int) - 1 else currentIndex + 1))
    · rw [if_pos hg] at h; cases h
    · rw [if_neg hg] at h
      cases hge : (partitionOf items item.checked)[currentIndex]? with
      | none => rw [hge] at h; cases h
      | some removed =>
        rw [hge] at h
        dsimp only at h
        simp only [Option.some.injEq, Prod.mk.injEq] at h
        obtain ⟨hc, hw⟩ := h
        push_neg at hg
        constructor
        · intro x hx
          have hbound : (if direction = .up then (currentIndex : Int) - 1
              else currentIndex + 1).toNat ≤
              ((partitionOf items item.checked).eraseIdx currentIndex).length := by
            rw [List.length_eraseIdx_of_lt hcur]
            omega
          have hrem : removed ∈ partitionOf items item.checked := List.getElem?_mem hge
          rw [← hc] at hx
          have hx2 : x ∈ (((partitionOf items item.checked).eraseIdx currentIndex).insertIdx
                  (if direction = .up then (currentIndex : Int) - 1
                    else currentIndex + 1).toNat removed) ∨
                x ∈ items.filter (fun i => i.checked != item.checked) := by
            by_cases hckd : item.checked = true
            · rw [if_pos hckd] at hx
              exact (List.mem_append.mp hx).elim Or.inr Or.inl
            · rw [if_neg hckd] at hx
              exact List.mem_append.mp hx
          rcases hx2 with hx' | hx'
          · rcases @mem_splice _ _ _ removed hbound x hx' with rfl | hx''
            · exact (mem_partitionOf hrem).1
            · exact (mem_partitionOf hx'').1
          · exact (List.mem_filter.mp hx').1
        · exact hw.symm

/-- Every id revision 1's swap move writes belongs to the moved item's own
checked-state partition. -/
theorem moveItem1_targets (items : List Item) (item : Item) (direction : Dir) :
    ∀ w ∈ V1.moveItem items item direction, ∀ tid ∈ targetsOf w,
      ∃ j ∈ partitionOf items item.checked, j.id = tid := by
  unfold V1.moveItem
  dsimp only
  cases hfi : (partitionOf items item.checked).findIdx? (fun i => i == item) with
  | none => intro w hw; cases hw
  | some index =>
    have hmem : item ∈ partitionOf items item.checked := by
      rcases List.findIdx?_eq_some_iff_getElem.mp hfi with ⟨hlt, hp, _⟩
      exact List.mem_iff_getElem.mpr ⟨index, hlt, eq_of_beq hp⟩
    dsimp only
    by_cases h1 : direction = Dir.up ∧ index = 0
    · rw [if_pos h1]
      intro w hw; cases hw
    · rw [if_neg h1]
      by_cases h2 : direction = Dir.down ∧ index = (partitionOf items item.checked).length - 1
      · rw [if_pos h2]
        intro w hw; cases hw
      · rw [if_neg h2]
        cases hge : (partitionOf items item.checked)[if direction = Dir.up then index - 1
            else index + 1]? with
        | none => intro w hw; cases hw
        | some targetItem =>
          have htmem : targetItem ∈ partitionOf items item.checked := List.getElem?_mem hge
          intro w hw tid htid
          rcases List.mem_cons.mp hw with rfl | hw
          · rcases List.mem_cons.mp htid with rfl | htid
            · exact ⟨item, hmem, rfl⟩
            · cases htid
          · rcases List.mem_cons.mp hw with rfl | hw
            · rcases List.mem_cons.mp htid with rfl | htid
              · exact ⟨targetItem, htmem, rfl⟩
              · cases htid
            · cases hw

/-- A drag hover event only permutes the local rows (possibly re-inserting the
picked-up row) and leaves the drag cell untouched. -/
theorem onDragOver_inv (s : V1.DragState) (t : Item) :
    (∀ x ∈ (V1.onDragOver s t).items, x ∈ s.items ∨ s.draggedItem = some x) ∧
      (V1.onDragOver s t).draggedItem = s.draggedItem := by
  unfold V1.onDragOver
  cases hd : s.draggedItem with
  | none => exact ⟨fun x hx => Or.inl hx, hd⟩
  | some d =>
    dsimp only
    by_cases h1 : d.id = t.id
    · rw [if_pos h1]
      exact ⟨fun x hx => Or.inl hx, hd⟩
    · rw [if_neg h1]
      by_cases h2 : d.checked ≠ t.checked
      · rw [if_pos h2]
        exact ⟨fun x hx => Or.inl hx, hd⟩
      · rw [if_neg h2]
        cases hdi : s.items.findIdx? (fun i => i.id == d.id) with
        | none => exact ⟨fun x hx => Or.inl hx, hd⟩
        | some draggedIdx =>
          cases hti : s.items.findIdx? (fun i => i.id == t.id) with
          | none => exact ⟨fun x hx => Or.inl hx, hd⟩
          | some targetIdx =>
            have hdi' : draggedIdx < s.items.length :=
              (List.findIdx?_eq_some_iff_findIdx_eq.mp hdi).1
            have hti' : targetIdx < s.items.length :=
              (List.findIdx?_eq_some_iff_findIdx_eq.mp hti).1
            have hb : targetIdx ≤ (s.items.eraseIdx draggedIdx).length := by
              rw [List.length_eraseIdx_of_lt hdi']
              omega
            refine ⟨fun x hx => ?_, rfl⟩
            rcases @mem_splice _ _ _ d hb x hx with rfl | hx'
            · exact Or.inr rfl
            · exact Or.inl hx'

/-- One engine step preserves the machine invariant, and every id it writes
belongs to partition `b` of the original rows. -/
theorem runOp_frame (listId : String) (items₀ : List Item) (b : Bool)
    (hnd : (items₀.map (fun i => i.id)).Nodup)
    (s : V1.DragState) (hs : EngineInv items₀ b s) :
    ∀ op : Op, opMoves items₀ b op →
      EngineInv items₀ b (runOp listId s op).1 ∧
        (∀ w ∈ (runOp listId s op).2, ∀ tid ∈ targetsOf w, idHasChecked items₀ b tid) := by
  obtain ⟨sub, hdrag⟩ := hs
  intro op hop
  cases op with
  | step itemId direction =>
    unfold runOp
    dsimp only
    cases hfind : s.items.find? (fun i => i.id == itemId) with
    | none =>
      dsimp only
      exact ⟨⟨sub, hdrag⟩, fun w hw => absurd hw (List.not_mem_nil w)⟩
    | some item =>
      dsimp only
      have hitem : item ∈ items₀ ∧ item.checked = b :=
        found_item_mem_checked hnd sub hfind hop
      cases hmove : V2.moveItem listId s.items item direction with
      | none =>
        dsimp only
        exact ⟨⟨sub, hdrag⟩, fun w hw => absurd hw (List.not_mem_nil w)⟩
      | some res =>
        obtain ⟨combined, w⟩ := res
        obtain ⟨hcsub, hw⟩ := moveItem2_inv listId s.items item direction combined w hmove
        dsimp only
        refine ⟨⟨fun i hi => sub i (hcsub i hi), hdrag⟩, ?_⟩
        intro w' hw' tid htid
        rcases List.mem_cons.mp hw' with rfl | hw''
        · rw [hw, hitem.2] at htid
          rw [targetsOf_saveNewPositions] at htid
          rcases List.mem_map.mp htid with ⟨j, hj, hjid⟩
          obtain ⟨hj1, hj2⟩ := mem_filter_checked hj
          exact ⟨j, sub j hj1, hjid, hj2⟩
        · cases hw''
  | swap itemId direction =>
    unfold runOp
    dsimp only
    cases hfind : s.items.find? (fun i => i.id == itemId) with
    | none =>
      dsimp only
      exact ⟨⟨sub, hdrag⟩, fun w hw => absurd hw (List.not_mem_nil w)⟩
    | some item =>
      dsimp only
      have hitem : item ∈ items₀ ∧ item.checked = b :=
        found_item_mem_checked hnd sub hfind hop
      refine ⟨⟨sub, hdrag⟩, ?_⟩
      intro w hw tid htid
      rcases moveItem1_targets s.items item direction w hw tid htid with ⟨j, hj, hjid⟩
      obtain ⟨hj1, hj2⟩ := mem_partitionOf hj
      exact ⟨j, sub j hj1, hjid, hitem.2 ▸ hj2⟩
  | dragStart itemId =>
    unfold runOp
    dsimp only
    cases hfind : s.items.find? (fun i => i.id == itemId) with
    | none =>
      dsimp only
      exact ⟨⟨sub, hdrag⟩, fun w hw => absurd hw (List.not_mem_nil w)⟩
    | some item =>
      dsimp only [V1.onDragStart]
      have hitem : item ∈ items₀ ∧ item.checked = b :=
        found_item_mem_checked hnd sub hfind hop
      refine ⟨⟨sub, ?_⟩, fun w hw => absurd hw (List.not_mem_nil w)⟩
      intro d hd
      cases hd
      exact hitem
  | dragOver targetId =>
    unfold runOp
    dsimp only
    cases hfind : s.items.find? (fun i => i.id == targetId) with
    | none =>
      dsimp only
      exact ⟨⟨sub, hdrag⟩, fun w hw => absurd hw (List.not_mem_nil w)⟩
    | some target =>
      dsimp only
      obtain ⟨hsub', hdrag'⟩ := onDragOver_inv s target
      refine ⟨⟨?_, ?_⟩, fun w hw => absurd hw (List.not_mem_nil w)⟩
      · intro x hx
        rcases hsub' x hx with h | h
        · exact sub x h
        · exact (hdrag x h).1
      · intro d hd
        rw [hdrag'] at hd
        exact hdrag d hd
  | dragEnd =>
    unfold runOp V1.onDragEnd
    dsimp only
    cases hd : s.draggedItem with
    | none =>
      dsimp only
      exact ⟨⟨sub, fun d hcon => absurd (hd ▸ hcon) (by simp)⟩, fun w hw =>
        absurd hw (List.not_mem_nil w)⟩
    | some d =>
      dsimp only
      have hdb : d ∈ items₀ ∧ d.checked = b := hdrag d hd
      refine ⟨⟨sub, fun d' hcon => absurd hcon (by simp)⟩, ?_⟩
      intro w hw tid htid
      rcases List.mem_cons.mp hw with rfl | hw'
      · rw [hdb.2] at htid
        rw [targetsOf_dragEnd] at htid
        rcases List.mem_map.mp htid with ⟨j, hj, hjid⟩
        obtain ⟨hj1, hj2⟩ := mem_partitionOf hj
        exact ⟨j, sub j hj1, hjid, hj2⟩
      · cases hw'

/-- Unfolding one step of `runOps`. -/
theorem runOps_cons (listId : String) (s : V1.DragState) (op : Op) (ops : List Op) :
    runOps listId s (op :: ops) =
      ((runOps listId (runOp listId s op).1 ops).1,
        (runOp listId s op).2 ++ (runOps listId (runOp listId s op).1 ops).2) := by
  cases hro : runOp listId s op with
  | mk s' ws =>
    cases hrr : runOps listId s' ops with
    | mk s'' ws' =>
      show (match runOp listId s op with
        | (s₁, ws₁) =>
          match runOps listId s₁ ops with
          | (s₂, ws₂) => (s₂, ws₁ ++ ws₂)) = _
      rw [hro]
      dsimp only
      rw [hrr]

/-- A partition-`b`-restricted event sequence preserves the invariant and
writes only partition-`b` ids. -/
theorem runOps_frame (listId : String) (items₀ : List Item) (b : Bool)
    (hnd : (items₀.map (fun i => i.id)).Nodup) :
    ∀ ops : List Op, ∀ s : V1.DragState, EngineInv items₀ b s →
      (∀ op ∈ ops, opMoves items₀ b op) →
      EngineInv items₀ b (runOps listId s ops).1 ∧
        (∀ w ∈ (runOps listId s ops).2, ∀ tid ∈ targetsOf w, idHasChecked items₀ b tid) := by
  intro ops
  induction ops with
  | nil =>
    intro s hs _
    exact ⟨hs, fun w hw => absurd hw (List.not_mem_nil w)⟩
  | cons op ops ih =>
    intro s hs hops
    obtain ⟨h1, h2⟩ := runOp_frame listId items₀ b hnd s hs op (hops op (List.mem_cons_self op ops))
    obtain ⟨h3, h4⟩ := ih (runOp listId s op).1 h1 (fun o ho => hops o (List.mem_cons_of_mem op ho))
    rw [runOps_cons]
    refine ⟨h3, ?_⟩
    intro w hw
    rcases List.mem_append.mp hw with hw' | hw'
    · exact h2 w hw'
    · exact h4 w hw'

/-- C1: for any sequence of reposition operations (revision 2 stepwise move,
revision 1 swap move, or revision 1 drag events) whose subjects lie in
checked-state partition `b` of the original rows, every issued write targets
only ids of partition `b`; hence the stored position of every row of the
opposite partition is unchanged once the writes are applied, and the locally
held rows always remain rows of the original list, their position fields
intact. Instantiating `b := false` gives the unchecked-restricted direction,
`b := true` the vice-versa. -/
theorem reposition_partition_independence (listId : String) (b : Bool)
    (items₀ : List Item) (ops : List Op) (store : List Item) (id : String)
    (hnd : (items₀.map (fun i => i.id)).Nodup)
    (hops : ∀ op ∈ ops, opMoves items₀ b op)
    (hid : idHasChecked items₀ (!b) id) :
    (∀ w ∈ (runOps listId ⟨items₀, none⟩ ops).2, ∀ tid ∈ targetsOf w,
        idHasChecked items₀ b tid) ∧
    posOf (applyWrites store (runOps listId ⟨items₀, none⟩ ops).2) id = posOf store id ∧
    (∀ i ∈ (runOps listId ⟨items₀, none⟩ ops).1.items, i ∈ items₀) := by
  have hinv : EngineInv items₀ b ⟨items₀, none⟩ :=
    ⟨fun i hi => hi, fun d hd => by cases hd⟩
  obtain ⟨h1, h2⟩ := runOps_frame listId items₀ b hnd ops ⟨items₀, none⟩ hinv hops
  refine ⟨h2, ?_, h1.1⟩
  refine posOf_applyWrites_ne id _ store ?_
  intro w hw hcon
  rcases h2 w hw id hcon with ⟨j, hj, hjid, hjb⟩
  rcases hid with ⟨k, hk, hkid, hkb⟩
  have hjk : j = k :=
    List.inj_on_of_nodup_map hnd hj hk (show j.id = k.id by rw [hjid, hkid])
  rw [hjk, hkb] at hjb
  simp at hjb

/-- Decidability of the event side condition, for concrete witnesses. -/
instance : ∀ items b op, Decidable (opMoves items b op) := fun items b op => by
  cases op <;> unfold opMoves <;> infer_instance

/-- A concrete unchecked-restricted event sequence: one stepwise move, then a
drag of A over B, then a swap move. -/
def witnessOps : List Op :=
  [Op.step "B" Dir.up, Op.dragStart "A", Op.dragOver "B", Op.dragEnd, Op.swap "A" Dir.down]

/-- Witness for C1 at a concrete input: the checked item C keeps its stored
position across the whole unchecked-restricted gesture sequence. -/
theorem reposition_partition_independence_witness :
    (((([uA, uB, cC] : List Item).map (fun i => i.id)).Nodup ∧
        (∀ op ∈ witnessOps, opMoves [uA, uB, cC] false op) ∧
        idHasChecked [uA, uB, cC] (!false) "C") ∧
      posOf (applyWrites [uA, uB, cC] (runOps "L" ⟨[uA, uB, cC], none⟩ witnessOps).2) "C" =
        posOf [uA, uB, cC] "C") :=
  ⟨⟨by decide, by decide, by decide⟩,
    (reposition_partition_independence "L" false [uA, uB, cC] witnessOps [uA, uB, cC] "C"
      (by decide) (by decide) (by decide)).2.1⟩
